import Mathlib

/-!
Verification of the Node Reliability Scoring & Selection Engine of
`clash_auto_switch` (file `clash_auto_switch/storage.py`).

The Python code is shallowly embedded: Python floats become rationals
(`ℚ`), Python dicts keyed by strings become association lists in
insertion order (Python dicts preserve insertion order, and key
assignment to an existing key keeps its position), and Python's stable
`list.sort` becomes Mathlib's stable `List.insertionSort`.  External
effects (file existence, file size, the result of JSON parsing, the
wall clock) are passed as explicit parameters.
-/

namespace ClashAutoSwitch

/-- Embedding of the `NodeRecord` dataclass of `storage.py`.
`last_available_time` is `None`-able in the source, hence `Option ℚ`;
`total_checks` is a non-negative integer count. -/
structure NodeRecord where
  node_name : String
  service_name : String
  proxy_group : String
  last_available_time : Option ℚ
  last_check_time : ℚ
  status : String
  reliability_score : ℚ
  total_checks : ℕ
deriving DecidableEq

/-- The persisted mapping `Dict[str, List[Dict]]`: an association list from
`"<group>#<service>"` keys to record lists, in dict insertion order. -/
abbrev StorageData := List (String × List NodeRecord)

/-- `NodeHistoryStorage._get_record_key`: `f"{proxy_group}#{service}"`. -/
def recordKey (proxy_group service : String) : String :=
  proxy_group ++ "#" ++ service

/-- Dict lookup: the value at `k`, if present (keys are unique in a dict;
on an arbitrary association list this reads the first occurrence). -/
def lookupKey (d : StorageData) (k : String) : Option (List NodeRecord) :=
  (d.find? (fun p => p.1 = k)).map (fun p => p.2)

/-- Dict assignment `d[k] = v`: replaces the value at the first occurrence
of `k` keeping its position, or appends `(k, v)` when `k` is absent —
exactly the Python dict semantics. -/
def setKey (d : StorageData) (k : String) (v : List NodeRecord) : StorageData :=
  match d with
  | [] => [(k, v)]
  | p :: rest => if p.1 = k then (k, v) :: rest else p :: setKey rest k v

/-- The time factor of `_calculate_reliability_score`:
`time_decay_hours = max(time_since_last_check / 3600, 0.01)` and
`time_factor = 1 / (1 + time_decay_hours * 0.1)`. -/
def timeFactor (time_since_last_check : ℚ) : ℚ :=
  let time_decay_hours := max (time_since_last_check / 3600) (1/100)
  1 / (1 + time_decay_hours * (1/10))

/-- `NodeHistoryStorage._calculate_reliability_score`, verbatim from the
source: adaptive learning rate, asymptotic improvement on success,
multiplicative penalty `0.3 + 0.2 * time_factor` on failure, and a final
clamp of the result into `[0, 1]`. -/
def calculateReliabilityScore (current_score : ℚ) (total_checks : ℕ)
    (is_success : Bool) (time_since_last_check : ℚ) : ℚ :=
  let base_learning_rate : ℚ := 1/10
  let time_factor := timeFactor time_since_last_check
  let adaptive_rate := base_learning_rate * time_factor / (1 + (total_checks : ℚ) * (1/100))
  let new_score :=
    if is_success then
      current_score + adaptive_rate * (1 - current_score)
    else
      current_score * (1 - ((3/10) + (2/10) * time_factor))
  max 0 (min 1 new_score)

/-- The update branch of `record_node_status` for an existing record:
`time_since_last = check_time - last_check_time`, a new reliability score
from `_calculate_reliability_score`, then the in-place field updates
(`last_check_time`, `status`, `reliability_score`, `total_checks`, and
`last_available_time` only on success). -/
def updatedRecord (r : NodeRecord) (is_available : Bool) (check_time : ℚ) : NodeRecord :=
  let time_since_last := check_time - r.last_check_time
  let new_score :=
    calculateReliabilityScore r.reliability_score r.total_checks is_available time_since_last
  { r with
    last_check_time := check_time
    status := if is_available then "available" else "failed"
    reliability_score := new_score
    total_checks := r.total_checks + 1
    last_available_time := if is_available then some check_time else r.last_available_time }

/-- The creation branch of `record_node_status`: a fresh record with
`initial_score = 0.5 if is_available else 0.1` and `total_checks = 1`. -/
def newRecord (node_name service_name proxy_group : String)
    (is_available : Bool) (check_time : ℚ) : NodeRecord :=
  { node_name := node_name
    service_name := service_name
    proxy_group := proxy_group
    last_available_time := if is_available then some check_time else none
    last_check_time := check_time
    status := if is_available then "available" else "failed"
    reliability_score := if is_available then (1/2 : ℚ) else (1/10 : ℚ)
    total_checks := 1 }

/-- The per-key body of `record_node_status`: find the first record whose
`node_name` matches and update it in place, else append a fresh record at
the end of the list. -/
def insertRecord (node_name service_name proxy_group : String)
    (is_available : Bool) (check_time : ℚ) : List NodeRecord → List NodeRecord
  | [] => [newRecord node_name service_name proxy_group is_available check_time]
  | r :: rs =>
    if r.node_name = node_name then updatedRecord r is_available check_time :: rs
    else r :: insertRecord node_name service_name proxy_group is_available check_time rs

/-- `NodeHistoryStorage.record_node_status` as a pure function on the
loaded mapping: look up the `"<group>#<service>"` key (an absent key
behaves as the empty list, matching `data[key] = []`), update or append
the record for `node_name`, and write the list back under the key. -/
def record_node_status (d : StorageData) (node_name service_name proxy_group : String)
    (is_available : Bool) (check_time : ℚ) : StorageData :=
  let key := recordKey proxy_group service_name
  let records := (lookupKey d key).getD []
  setKey d key (insertRecord node_name service_name proxy_group is_available check_time records)

/-- The stored record list for a `(group, service)` pair (empty when the
key is absent). -/
def recordsOf (d : StorageData) (proxy_group service_name : String) : List NodeRecord :=
  (lookupKey d (recordKey proxy_group service_name)).getD []

/-- The stored reliability score of `node_name` under `(group, service)`:
the score of the first record with that name, if any. -/
def relScoreOf (d : StorageData) (proxy_group service_name node_name : String) : Option ℚ :=
  ((recordsOf d proxy_group service_name).find? (fun r => r.node_name = node_name)).map
    (fun r => r.reliability_score)

/-- One element of the `reliability_rankings` list built by
`NodeHistoryStorage.get_statistics`. -/
structure RankEntry where
  node : String
  reliability_score : ℚ
  success_rate : ℚ
  total_checks : ℕ
  current_status : String
deriving DecidableEq

/-- `get_node_history` without a node filter: the records under the key,
sorted by `last_check_time` most recent first.  Python's in-place
`list.sort(key=..., reverse=True)` is a stable descending sort, which is
what `List.insertionSort` with the non-strict relation computes. -/
def nodeHistory (d : StorageData) (proxy_group service_name : String) : List NodeRecord :=
  List.insertionSort (fun a b => b.last_check_time ≤ a.last_check_time)
    (recordsOf d proxy_group service_name)

/-- One iteration of the `node_latest` loop of `get_statistics`:
`if node not in node_latest or record.last_check_time >
node_latest[node].last_check_time: node_latest[node] = record`, on a
dict kept as an association list in insertion order. -/
def nodeLatestStep (acc : List (String × NodeRecord)) (r : NodeRecord) :
    List (String × NodeRecord) :=
  match acc.find? (fun p => p.1 = r.node_name) with
  | none => acc ++ [(r.node_name, r)]
  | some p =>
    if p.2.last_check_time < r.last_check_time then
      acc.map (fun q => if q.1 = r.node_name then (q.1, r) else q)
    else acc

/-- The `node_latest` dict of `get_statistics` after the whole record
loop. -/
def nodeLatest (records : List NodeRecord) : List (String × NodeRecord) :=
  records.foldl nodeLatestStep []

/-- The `reliability_rankings` entry `get_statistics` builds for one node
from its latest record: `node_records` is this node's full history,
`successful` counts its `"available"` records, and `success_rate` is
`successful / len(node_records)` (0 when there are no records). -/
def mkRankEntry (records : List NodeRecord) (node : String) (latest : NodeRecord) :
    RankEntry :=
  let node_records := records.filter (fun r => decide (r.node_name = node))
  let successful := (node_records.filter (fun r => decide (r.status = "available"))).length
  { node := node
    reliability_score := latest.reliability_score
    success_rate :=
      if 0 < node_records.length then (successful : ℚ) / (node_records.length : ℚ) else 0
    total_checks := latest.total_checks
    current_status := latest.status }

/-- The `reliability_rankings` list of `get_statistics`: one entry per
node of `node_latest` (in dict insertion order), then a stable sort by
`reliability_score`, highest first. -/
def reliabilityRankings (records : List NodeRecord) : List RankEntry :=
  List.insertionSort (fun a b => b.reliability_score ≤ a.reliability_score)
    ((nodeLatest records).map (fun p => mkRankEntry records p.1 p.2))

/-- `NodeHistoryStorage.get_nodes_by_reliability`: the rankings filtered
by `reliability_score >= min_reliability` and truncated to `limit`. -/
def getNodesByReliability (d : StorageData) (proxy_group service_name : String)
    (min_reliability : ℚ) (limit : ℕ) : List RankEntry :=
  ((reliabilityRankings (nodeHistory d proxy_group service_name)).filter
    (fun e => decide (min_reliability ≤ e.reliability_score))).take limit

/-- The `reliability_map` dict comprehension of `get_recommended_node`
followed by `.get(node)`: with duplicate names the last entry wins,
matching dict-comprehension semantics. -/
def reliabilityMapGet (reliable_nodes : List RankEntry) (name : String) : Option RankEntry :=
  reliable_nodes.foldl (fun acc e => if e.node = name then some e else acc) none

/-- The per-candidate `final_score` of `get_recommended_node`:
`0.7 * reliability_score + 0.3 * success_rate` plus the confidence boost
`min(total_checks/50, 1) * ((success_rate - 0.5) * 2) * 0.1` when
`success_rate > 0.5 and total_checks >= 5`, or the fixed exploration
score `0.3` for a node absent from `reliability_map`. -/
def finalScore (info : Option RankEntry) : ℚ :=
  match info with
  | some e =>
    let combined_score := (7/10) * e.reliability_score + (3/10) * e.success_rate
    let confidence_boost :=
      if (1/2 : ℚ) < e.success_rate ∧ 5 ≤ e.total_checks then
        min ((e.total_checks : ℚ) / 50) 1 * ((e.success_rate - 1/2) * 2) * (1/10)
      else 0
    combined_score + confidence_boost
  | none => 3/10

/-- The `candidates` list of `get_recommended_node`: for each
`(index, node)` of `enumerate(available_nodes)` the triple
`(node, final_score, index)`, where the reliability data comes from
`get_nodes_by_reliability(..., min_reliability=0.0,
limit=len(available_nodes))`. -/
def candidateList (d : StorageData) (proxy_group service_name : String)
    (available_nodes : List String) : List (String × ℚ × ℕ) :=
  let reliable_nodes :=
    getNodesByReliability d proxy_group service_name 0 available_nodes.length
  available_nodes.enum.map
    (fun p => (p.2, finalScore (reliabilityMapGet reliable_nodes p.2), p.1))

/-- The candidate ordering of `candidates.sort(key=lambda x: (-x[1],
x[2]))`: `a` precedes `b` when `a` has the larger score, or an equal
score and the smaller-or-equal original index. -/
def candLE (a b : String × ℚ × ℕ) : Prop :=
  b.2.1 < a.2.1 ∨ (a.2.1 = b.2.1 ∧ a.2.2 ≤ b.2.2)

instance : DecidableRel candLE := fun a b => by
  unfold candLE; infer_instance

instance : IsTotal (String × ℚ × ℕ) candLE where
  total a b := by
    rcases lt_trichotomy a.2.1 b.2.1 with h | h | h
    · exact Or.inr (Or.inl h)
    · rcases Nat.le_total a.2.2 b.2.2 with h' | h'
      · exact Or.inl (Or.inr ⟨h, h'⟩)
      · exact Or.inr (Or.inr ⟨h.symm, h'⟩)
    · exact Or.inl (Or.inl h)

instance : IsTrans (String × ℚ × ℕ) candLE where
  trans a b c hab hbc := by
    rcases hab with h1 | ⟨h1, h1'⟩ <;> rcases hbc with h2 | ⟨h2, h2'⟩
    · exact Or.inl (lt_trans h2 h1)
    · exact Or.inl (h2 ▸ h1)
    · exact Or.inl (by rw [h1]; exact h2)
    · exact Or.inr ⟨h1.trans h2, le_trans h1' h2'⟩

/-- `NodeHistoryStorage.get_recommended_node`: score all available
nodes, return `None` when there are no candidates, otherwise sort by
`(-score, index)` and return the first candidate whose name differs from
`current_node`, or the top candidate when every name equals it. -/
def get_recommended_node (d : StorageData) (proxy_group service_name : String)
    (available_nodes : List String) (current_node : Option String) : Option String :=
  let candidates := candidateList d proxy_group service_name available_nodes
  if candidates.isEmpty then none
  else
    let sorted := List.insertionSort candLE candidates
    match sorted.find? (fun c => decide (some c.1 ≠ current_node)) with
    | some c => some c.1
    | none => sorted.head?.map (fun c => c.1)

/-- One iteration of the `_cleanup_old_records` loop: keep the key with
the records newer than the cutoff, or drop the key entirely when no
record survives (`cleaned_data` is rebuilt in iteration order). -/
def cleanupStep (cutoff_time : ℚ) (cleaned : StorageData)
    (p : String × List NodeRecord) : StorageData :=
  let filtered := p.2.filter (fun r => decide (cutoff_time < r.last_check_time))
  if filtered.isEmpty then cleaned else cleaned ++ [(p.1, filtered)]

/-- `NodeHistoryStorage._cleanup_old_records`: return the data unchanged
unless the backing file exists and its size is at least 5 MiB; otherwise
rebuild the mapping keeping only records with
`last_check_time > now - 30 days`.  The file-system facts (existence,
size) and the clock are explicit parameters standing for
`self._data_file.exists()`, `self._data_file.stat().st_size` and
`time.time()`. -/
def cleanupOldRecords (fileExists : Bool) (fileSize : ℕ) (now : ℚ)
    (data : StorageData) : StorageData :=
  if !fileExists || fileSize < 5 * 1024 * 1024 then data
  else
    let cutoff_time := now - 30 * 24 * 60 * 60
    data.foldl (cleanupStep cutoff_time) []

/-- The possible outcomes of opening the backing file and running
`json.load` on it: a successful parse, a `json.JSONDecodeError`, an
`IOError`, or a `UnicodeDecodeError` (raised when the file's bytes are
not valid UTF-8; it is a `ValueError`, not an `OSError`). -/
inductive LoadOutcome where
  | parsed (d : StorageData)
  | jsonDecodeError
  | ioError
  | unicodeDecodeError
deriving DecidableEq

/-- `NodeHistoryStorage._load_data`, with the file system abstracted: no
backing file yields the empty mapping without touching the file;
otherwise the result depends on the read/parse outcome.  The `try`
block's `except (json.JSONDecodeError, IOError)` clause swallows exactly
those two exception classes, yielding the empty mapping; a
`UnicodeDecodeError` from invalid-UTF-8 file contents matches neither
class and escapes the function, modelled as the `Except.error`
result. -/
def loadData (fileExists : Bool) (outcome : LoadOutcome) :
    Except Unit StorageData :=
  if fileExists = false then .ok []
  else
    match outcome with
    | .parsed d => .ok d
    | .jsonDecodeError => .ok []
    | .ioError => .ok []
    | .unicodeDecodeError => .error ()

/-- One externally supplied observation: the arguments of one
`record_node_status` call (node, service, group, outcome, check time). -/
structure Obs where
  node : String
  service : String
  group : String
  ok : Bool
  t : ℚ
deriving DecidableEq

/-- The storage key an observation is recorded under. -/
def obsKey (o : Obs) : String := recordKey o.group o.service

/-- Record one observation into the stored mapping. -/
def applyObs (d : StorageData) (o : Obs) : StorageData :=
  record_node_status d o.node o.service o.group o.ok o.t

/-- The stored mapping after recording a sequence of observations,
starting from the empty store. -/
def runTrace (tr : List Obs) : StorageData :=
  tr.foldl applyObs []

/-- C6 counterexample trace: a success at time 100 followed by a failure
recorded with an explicit earlier `check_time` of 50. -/
def cexTrace : List Obs :=
  [{ node := "N", service := "s", group := "g", ok := true, t := 100 },
   { node := "N", service := "s", group := "g", ok := false, t := 50 }]

/-- Witness trace for the amended C6: one successful observation. -/
def witnessTrace : List Obs :=
  [{ node := "N", service := "s", group := "g", ok := true, t := 10 }]

/-- Invariant tying a stored mapping to the trace of observations that
produced it, for the reachability induction: unique keys, unique node
names per key, `last_available_time` set exactly when the trace holds a
success for the record's key and node, the time bounds (under
non-decreasing check times), and a record for every observed pair. -/
def traceInv (tr : List Obs) (d : StorageData) : Prop :=
  (d.map Prod.fst).Nodup ∧
  (∀ p ∈ d, (p.2.map NodeRecord.node_name).Nodup) ∧
  (∀ p ∈ d, ∀ r ∈ p.2,
    r.last_available_time.isSome ↔
      ∃ o ∈ tr, obsKey o = p.1 ∧ o.node = r.node_name ∧ o.ok = true) ∧
  ((tr.map Obs.t).Sorted (· ≤ ·) →
    ∀ p ∈ d, ∀ r ∈ p.2,
      (∀ v, r.last_available_time = some v → v ≤ r.last_check_time) ∧
      (∃ o ∈ tr, r.last_check_time = o.t)) ∧
  (∀ o ∈ tr, ∃ p ∈ d, p.1 = obsKey o ∧ ∃ r ∈ p.2, r.node_name = o.node)

/-- Concrete stored state for the C2 counterexample: two relays under
`"g#s"`, "A" scored 0.2 with one failed check and "B" scored 0.9 with
ten checks. -/
def cexData : StorageData :=
  [("g#s",
    [{ node_name := "A", service_name := "s", proxy_group := "g",
       last_available_time := none, last_check_time := 10, status := "failed",
       reliability_score := 2/10, total_checks := 1 },
     { node_name := "B", service_name := "s", proxy_group := "g",
       last_available_time := some 10, last_check_time := 10, status := "available",
       reliability_score := 9/10, total_checks := 10 }])]

end ClashAutoSwitch

/-! ### Theorems -/

namespace ClashAutoSwitch

/- Core marks the rational-arithmetic primitives `[irreducible]`, which
blocks elaboration-time evaluation in `decide` on concrete inputs; the
kernel reduces them regardless, so restoring the default reducibility
locally is sound and lets concrete evaluations go through. -/
attribute [local semireducible] Rat.mul Rat.inv Rat.add Rat.sub

theorem timeFactor_pos (t : ℚ) : 0 < timeFactor t := by
  unfold timeFactor
  have h1 : (1/100 : ℚ) ≤ max (t / 3600) (1/100) := le_max_right _ _
  have h2 : (0 : ℚ) < 1 + max (t / 3600) (1/100) * (1/10) := by nlinarith
  positivity

theorem timeFactor_lt_one (t : ℚ) : timeFactor t < 1 := by
  unfold timeFactor
  have h1 : (1/100 : ℚ) ≤ max (t / 3600) (1/100) := le_max_right _ _
  have h2 : (1 : ℚ) < 1 + max (t / 3600) (1/100) * (1/10) := by nlinarith
  rw [div_lt_one] <;> nlinarith

theorem calculateReliabilityScore_eq (s : ℚ) (n : ℕ) (ok : Bool) (t : ℚ) :
    calculateReliabilityScore s n ok t =
      max 0 (min 1 (if ok then
          s + (1/10) * timeFactor t / (1 + (n : ℚ) * (1/100)) * (1 - s)
        else
          s * (1 - ((3/10) + (2/10) * timeFactor t)))) := rfl

/-- C1: for every `current_score ∈ [0, 1]`, non-negative `total_checks`
and `seconds_since_last_check`, and both outcomes,
`_calculate_reliability_score` returns a value in `[0, 1]`; a success
with `current_score < 1` never decreases the score; a failure never
increases it. -/
theorem reliability_update_props (s : ℚ) (n : ℕ) (ok : Bool) (t : ℚ)
    (h0 : 0 ≤ s) (h1 : s ≤ 1) (ht : 0 ≤ t) :
    (0 ≤ calculateReliabilityScore s n ok t ∧ calculateReliabilityScore s n ok t ≤ 1) ∧
    (ok = true → s < 1 → s ≤ calculateReliabilityScore s n ok t) ∧
    (ok = false → calculateReliabilityScore s n ok t ≤ s) := by
  have htf0 := timeFactor_pos t
  have htf1 := timeFactor_lt_one t
  have hn : (0 : ℚ) ≤ (n : ℚ) := Nat.cast_nonneg n
  rw [calculateReliabilityScore_eq]
  refine ⟨⟨le_max_left 0 _, max_le zero_le_one (min_le_left _ _)⟩, ?_, ?_⟩
  · rintro rfl hs1
    simp only [if_true]
    have hd : (0 : ℚ) < 1 + (n : ℚ) * (1/100) := by nlinarith
    have hr0 : 0 ≤ (1/10) * timeFactor t / (1 + (n : ℚ) * (1/100)) :=
      div_nonneg (by nlinarith) hd.le
    have hsnew : s ≤ s + (1/10) * timeFactor t / (1 + (n : ℚ) * (1/100)) * (1 - s) := by
      nlinarith
    exact le_trans (le_min h1 hsnew) (le_max_right 0 _)
  · rintro rfl
    simp only [Bool.false_eq_true, if_false]
    have hp0 : (0 : ℚ) ≤ (3/10) + (2/10) * timeFactor t := by nlinarith
    have hnew : s * (1 - ((3/10) + (2/10) * timeFactor t)) ≤ s := by nlinarith
    exact max_le h0 (le_trans (min_le_right _ _) hnew)

theorem reliability_update_props_witness :
    (0 ≤ calculateReliabilityScore (1/2) 0 true 0 ∧
      calculateReliabilityScore (1/2) 0 true 0 ≤ 1) ∧
    (true = true → (1/2 : ℚ) < 1 → (1/2 : ℚ) ≤ calculateReliabilityScore (1/2) 0 true 0) ∧
    (true = false → calculateReliabilityScore (1/2) 0 true 0 ≤ 1/2) :=
  reliability_update_props (1/2) 0 true 0 (by norm_num) (by norm_num) (le_refl 0)

theorem lookupKey_setKey_self (d : StorageData) (k : String) (v : List NodeRecord) :
    lookupKey (setKey d k v) k = some v := by
  induction d with
  | nil => simp [setKey, lookupKey, List.find?]
  | cons p rest ih =>
    by_cases h : p.1 = k
    · simp [setKey, h, lookupKey, List.find?]
    · simp only [setKey, if_neg h]
      simpa [lookupKey, List.find?, h] using ih

theorem lookupKey_setKey_other (d : StorageData) (k k' : String) (v : List NodeRecord)
    (h : k' ≠ k) : lookupKey (setKey d k v) k' = lookupKey d k' := by
  induction d with
  | nil => simp [setKey, lookupKey, List.find?, Ne.symm h]
  | cons p rest ih =>
    by_cases hp : p.1 = k
    · simp [setKey, hp, lookupKey, List.find?, Ne.symm h, hp ▸ Ne.symm h]
    · by_cases hp' : p.1 = k'
      · simp only [setKey, if_neg hp]
        simp [lookupKey, List.find?, hp']
      · simp only [setKey, if_neg hp]
        simpa [lookupKey, List.find?, hp'] using ih

theorem mem_setKey (d : StorageData) (k : String) (v : List NodeRecord)
    (p : String × List NodeRecord) (h : p ∈ setKey d k v) : p = (k, v) ∨ p ∈ d := by
  induction d with
  | nil => simpa [setKey] using h
  | cons q rest ih =>
    by_cases hq : q.1 = k
    · simp only [setKey, if_pos hq, List.mem_cons] at h
      rcases h with h | h
      · exact Or.inl h
      · exact Or.inr (List.mem_cons_of_mem q h)
    · simp only [setKey, if_neg hq, List.mem_cons] at h
      rcases h with h | h
      · exact Or.inr (h ▸ List.mem_cons_self q rest)
      · rcases ih h with h' | h'
        · exact Or.inl h'
        · exact Or.inr (List.mem_cons_of_mem q h')

theorem lookupKey_mem (d : StorageData) (k : String) (rs : List NodeRecord)
    (h : lookupKey d k = some rs) : (k, rs) ∈ d := by
  unfold lookupKey at h
  rcases hf : d.find? (fun p => p.1 = k) with _ | p
  · rw [hf] at h; simp at h
  · rw [hf] at h
    simp only [Option.map_some', Option.some.injEq] at h
    have hm := List.mem_of_find?_eq_some hf
    have hk := List.find?_some hf
    simp only [decide_eq_true_eq] at hk
    have hpk : p = (k, rs) := Prod.ext_iff.mpr ⟨hk, h⟩
    exact hpk ▸ hm

theorem insertRecord_names_of_mem (node service group : String) (ok : Bool) (t : ℚ)
    (rs : List NodeRecord) (h : ∃ r ∈ rs, r.node_name = node) :
    (insertRecord node service group ok t rs).map NodeRecord.node_name
      = rs.map NodeRecord.node_name := by
  induction rs with
  | nil => simp at h
  | cons r tl ih =>
    by_cases hr : r.node_name = node
    · simp [insertRecord, if_pos hr, updatedRecord, hr]
    · obtain ⟨r', hr', hname⟩ := h
      rcases List.mem_cons.mp hr' with h' | h'
      · exact absurd (h' ▸ hname) hr
      · simp [insertRecord, if_neg hr, ih ⟨r', h', hname⟩]

theorem insertRecord_of_not_mem (node service group : String) (ok : Bool) (t : ℚ)
    (rs : List NodeRecord) (h : ∀ r ∈ rs, r.node_name ≠ node) :
    insertRecord node service group ok t rs = rs ++ [newRecord node service group ok t] := by
  induction rs with
  | nil => simp [insertRecord]
  | cons r tl ih =>
    have hr : r.node_name ≠ node := h r (List.mem_cons_self r tl)
    simp [insertRecord, if_neg hr, ih (fun r' hr' => h r' (List.mem_cons_of_mem r hr'))]

theorem insertRecord_filter_ne (node service group : String) (ok : Bool) (t : ℚ)
    (rs : List NodeRecord) :
    (insertRecord node service group ok t rs).filter (fun r => decide (r.node_name ≠ node))
      = rs.filter (fun r => decide (r.node_name ≠ node)) := by
  induction rs with
  | nil => simp [insertRecord, newRecord, List.filter]
  | cons r tl ih =>
    by_cases hr : r.node_name = node
    · simp [insertRecord, if_pos hr, List.filter, hr, updatedRecord]
    · simp only [ne_eq, decide_not] at ih
      simp [insertRecord, if_neg hr, List.filter, hr, ih]

theorem recordsOf_record_node_status (d : StorageData)
    (node service group : String) (ok : Bool) (t : ℚ) :
    recordsOf (record_node_status d node service group ok t) group service
      = insertRecord node service group ok t (recordsOf d group service) := by
  unfold recordsOf record_node_status
  rw [lookupKey_setKey_self]
  rfl

/-- C5: starting from a state in which every stored record list has
pairwise-distinct node names (at most one record per triple),
`record_node_status` preserves this uniqueness; when a record for the
observed node already exists under the key, the key's name sequence is
unchanged (in-place mutation, no append), and when none exists the new
record is appended at the end. -/
theorem record_preserves_uniqueness (d : StorageData)
    (node service group : String) (ok : Bool) (t : ℚ)
    (h : ∀ k rs, (k, rs) ∈ d → (rs.map NodeRecord.node_name).Nodup) :
    (∀ k rs, (k, rs) ∈ record_node_status d node service group ok t →
        (rs.map NodeRecord.node_name).Nodup) ∧
    ((∃ r ∈ recordsOf d group service, r.node_name = node) →
        (recordsOf (record_node_status d node service group ok t) group service).map
            NodeRecord.node_name
          = (recordsOf d group service).map NodeRecord.node_name) ∧
    ((∀ r ∈ recordsOf d group service, r.node_name ≠ node) →
        recordsOf (record_node_status d node service group ok t) group service
          = recordsOf d group service ++ [newRecord node service group ok t]) := by
  have hold : ((recordsOf d group service).map NodeRecord.node_name).Nodup := by
    unfold recordsOf
    rcases hl : lookupKey d (recordKey group service) with _ | rs
    · simp
    · simpa using h _ rs (lookupKey_mem d _ rs hl)
  refine ⟨?_, ?_, ?_⟩
  · intro k rs hmem
    have hmem' : (k, rs) ∈ setKey d (recordKey group service)
        (insertRecord node service group ok t (recordsOf d group service)) := hmem
    rcases mem_setKey _ _ _ _ hmem' with he | he
    · have hrs : rs = insertRecord node service group ok t (recordsOf d group service) :=
        congrArg Prod.snd he
      by_cases hex : ∃ r ∈ recordsOf d group service, r.node_name = node
      · rw [hrs, insertRecord_names_of_mem _ _ _ _ _ _ hex]
        exact hold
      · push_neg at hex
        rw [hrs, insertRecord_of_not_mem _ _ _ _ _ _ hex]
        simp only [List.map_append, List.map_cons, List.map_nil]
        refine hold.append (List.nodup_singleton _) ?_
        intro a ha hb
        obtain ⟨r, hr, hrn⟩ := List.mem_map.mp ha
        have hb' : a = node := by simpa [newRecord] using hb
        exact hex r hr (hrn.trans hb')
    · exact h k rs he
  · intro hex
    rw [recordsOf_record_node_status]
    exact insertRecord_names_of_mem _ _ _ _ _ _ hex
  · intro hnone
    rw [recordsOf_record_node_status]
    exact insertRecord_of_not_mem _ _ _ _ _ _ hnone

theorem record_preserves_uniqueness_witness :
    (∀ k rs, (k, rs) ∈ record_node_status [] "A" "s" "g" true 0 →
        (rs.map NodeRecord.node_name).Nodup) ∧
    ((∃ r ∈ recordsOf [] "g" "s", r.node_name = "A") →
        (recordsOf (record_node_status [] "A" "s" "g" true 0) "g" "s").map
            NodeRecord.node_name
          = (recordsOf [] "g" "s").map NodeRecord.node_name) ∧
    ((∀ r ∈ recordsOf [] "g" "s", r.node_name ≠ "A") →
        recordsOf (record_node_status [] "A" "s" "g" true 0) "g" "s"
          = recordsOf [] "g" "s" ++ [newRecord "A" "s" "g" true 0]) :=
  record_preserves_uniqueness [] "A" "s" "g" true 0 (by simp)

/-- C10: frame property of `record_node_status`: every key other than
`"<group>#<service>"` maps to an unchanged record list, and under the
observed key the sublist of records whose `node_name` differs from the
observed node is unchanged. -/
theorem record_frame (d : StorageData) (node service group : String) (ok : Bool) (t : ℚ) :
    (∀ k, k ≠ recordKey group service →
        lookupKey (record_node_status d node service group ok t) k = lookupKey d k) ∧
    (recordsOf (record_node_status d node service group ok t) group service).filter
        (fun r => decide (r.node_name ≠ node))
      = (recordsOf d group service).filter (fun r => decide (r.node_name ≠ node)) := by
  constructor
  · intro k hk
    exact lookupKey_setKey_other d (recordKey group service) k _ hk
  · rw [recordsOf_record_node_status]
    exact insertRecord_filter_ne node service group ok t _

theorem record_frame_witness :
    lookupKey (record_node_status [] "A" "s" "g" true 0) "other"
      = lookupKey [] "other" :=
  (record_frame [] "A" "s" "g" true 0).1 "other" (by decide)

theorem crs_failure_bounds (s : ℚ) (n : ℕ) (t : ℚ) (hs0 : 0 < s) (hs1 : s ≤ 1) :
    0 < calculateReliabilityScore s n false t ∧
    calculateReliabilityScore s n false t < (7/10) * s := by
  have htf0 := timeFactor_pos t
  have htf1 := timeFactor_lt_one t
  rw [calculateReliabilityScore_eq]
  simp only [Bool.false_eq_true, if_false]
  have hp : 0 < 1 - ((3/10) + (2/10) * timeFactor t) := by nlinarith
  have h2 : 0 < s * (1 - ((3/10) + (2/10) * timeFactor t)) := mul_pos hs0 hp
  have h3 : s * (1 - ((3/10) + (2/10) * timeFactor t)) ≤ 1 :=
    mul_le_one₀ hs1 hp.le (by nlinarith)
  rw [min_eq_right h3, max_eq_right h2.le]
  refine ⟨h2, ?_⟩
  nlinarith [mul_pos hs0 htf0]

/-- C7: recording three consecutive failures for a brand-new relay "X"
(at arbitrary observation times) yields a reliability score of exactly
1/10 after the first failure, strictly smaller scores after each of the
next two failures, and a final score strictly below (1/10) * (1/2). -/
theorem three_failures_sequence (t1 t2 t3 : ℚ) :
    relScoreOf (record_node_status [] "X" "svc" "grp" false t1) "grp" "svc" "X"
      = some (1/10) ∧
    ∃ b c,
      relScoreOf (record_node_status (record_node_status [] "X" "svc" "grp" false t1)
          "X" "svc" "grp" false t2) "grp" "svc" "X" = some b ∧
      relScoreOf (record_node_status (record_node_status (record_node_status []
          "X" "svc" "grp" false t1) "X" "svc" "grp" false t2)
          "X" "svc" "grp" false t3) "grp" "svc" "X" = some c ∧
      b < 1/10 ∧ c < b ∧ c < (1/10) * (1/2) := by
  have e1 : relScoreOf (record_node_status [] "X" "svc" "grp" false t1) "grp" "svc" "X"
      = some (1/10) := rfl
  have e2 : relScoreOf (record_node_status (record_node_status [] "X" "svc" "grp" false t1)
      "X" "svc" "grp" false t2) "grp" "svc" "X"
      = some (calculateReliabilityScore (1/10) 1 false (t2 - t1)) := rfl
  have e3 : relScoreOf (record_node_status (record_node_status (record_node_status []
      "X" "svc" "grp" false t1) "X" "svc" "grp" false t2)
      "X" "svc" "grp" false t3) "grp" "svc" "X"
      = some (calculateReliabilityScore
          (calculateReliabilityScore (1/10) 1 false (t2 - t1)) 2 false (t3 - t2)) := rfl
  obtain ⟨hb0, hb1⟩ := crs_failure_bounds (1/10) 1 (t2 - t1) (by norm_num) (by norm_num)
  obtain ⟨hc0, hc1⟩ := crs_failure_bounds _ 2 (t3 - t2) hb0 (by nlinarith)
  exact ⟨e1, _, _, e2, e3, by nlinarith, by nlinarith, by nlinarith⟩

theorem candLE_refl (a : String × ℚ × ℕ) : candLE a a := Or.inr ⟨rfl, le_refl _⟩

theorem candidateList_length (d : StorageData) (g s : String) (available : List String) :
    (candidateList d g s available).length = available.length := by
  simp [candidateList]

theorem mem_candidateList_fst (d : StorageData) (g s : String) (available : List String)
    (c : String × ℚ × ℕ) (h : c ∈ candidateList d g s available) : c.1 ∈ available := by
  simp only [candidateList, List.mem_map] at h
  obtain ⟨p, hp, rfl⟩ := h
  have hm := List.mem_map_of_mem Prod.snd hp
  rwa [List.enum_map_snd] at hm

theorem find?_sorted_forall {α : Type} {r : α → α → Prop} [DecidableRel r]
    (hrefl : ∀ a, r a a) {p : α → Bool} :
    ∀ l : List α, List.Sorted r l → ∀ c, l.find? p = some c →
      c ∈ l ∧ p c = true ∧ ∀ b ∈ l, p b = true → r c b := by
  intro l
  induction l with
  | nil => intro _ c hc; simp at hc
  | cons x xs ih =>
    intro hs c hc
    cases hpx : p x with
    | true =>
      simp only [List.find?_cons, hpx] at hc
      obtain rfl := Option.some.inj hc
      refine ⟨List.mem_cons_self _ _, hpx, ?_⟩
      intro b hb _
      rcases List.mem_cons.mp hb with rfl | hb'
      · exact hrefl b
      · exact (List.sorted_cons.mp hs).1 b hb'
    | false =>
      simp only [List.find?_cons, hpx] at hc
      obtain ⟨hc1, hc2, hc3⟩ := ih (List.sorted_cons.mp hs).2 c hc
      refine ⟨List.mem_cons_of_mem _ hc1, hc2, ?_⟩
      intro b hb hpb
      rcases List.mem_cons.mp hb with rfl | hb'
      · exact absurd hpb (by simp [hpx])
      · exact hc3 b hb' hpb

theorem sorted_head_forall {α : Type} {r : α → α → Prop} (hrefl : ∀ a, r a a)
    (x : α) (xs : List α) (hs : List.Sorted r (x :: xs)) :
    ∀ b ∈ x :: xs, r x b := by
  intro b hb
  rcases List.mem_cons.mp hb with rfl | hb'
  · exact hrefl b
  · exact (List.sorted_cons.mp hs).1 b hb'

theorem recommend_result_cases (d : StorageData) (g s : String)
    (available : List String) (current : Option String) (h : available ≠ []) :
    ∃ c ∈ List.insertionSort candLE (candidateList d g s available),
      get_recommended_node d g s available current = some c.1 ∧
      ((List.insertionSort candLE (candidateList d g s available)).find?
          (fun x => decide (some x.1 ≠ current)) = some c ∨
        ((List.insertionSort candLE (candidateList d g s available)).find?
          (fun x => decide (some x.1 ≠ current)) = none ∧
          (List.insertionSort candLE (candidateList d g s available)).head? = some c)) := by
  have hlen : (candidateList d g s available).length = available.length :=
    candidateList_length d g s available
  have hne : (candidateList d g s available).isEmpty = false := by
    rcases hcl : candidateList d g s available with _ | ⟨x, xs⟩
    · rw [hcl] at hlen
      exact absurd (List.length_eq_zero.mp hlen.symm) h
    · rfl
  have hslen : (List.insertionSort candLE (candidateList d g s available)).length
      = available.length := by
    rw [(List.perm_insertionSort candLE _).length_eq, hlen]
  rcases hf : (List.insertionSort candLE (candidateList d g s available)).find?
      (fun x => decide (some x.1 ≠ current)) with _ | c
  · rcases hsort : List.insertionSort candLE (candidateList d g s available) with _ | ⟨c0, tl⟩
    · exfalso
      apply h
      apply List.length_eq_zero.mp
      rw [← hslen]
      simp [hsort]
    · rw [hsort] at hf
      refine ⟨c0, List.mem_cons_self _ _, ?_, Or.inr ⟨hf, rfl⟩⟩
      unfold get_recommended_node
      simp only [hne, Bool.false_eq_true, if_false, hsort, hf, List.head?_cons,
        Option.map_some']
  · refine ⟨c, List.mem_of_find?_eq_some hf, ?_, Or.inl hf⟩
    unfold get_recommended_node
    simp only [hne, Bool.false_eq_true, if_false, hf]

/-- C4: `get_recommended_node` returns no name exactly when
`available_nodes` is empty, and any name it returns is a member of
`available_nodes`. -/
theorem recommend_membership (d : StorageData) (g s : String)
    (available : List String) (current : Option String) :
    (get_recommended_node d g s available current = none ↔ available = []) ∧
    (∀ n, get_recommended_node d g s available current = some n → n ∈ available) := by
  constructor
  · constructor
    · intro hres
      by_contra hav
      obtain ⟨c, _, hc, _⟩ := recommend_result_cases d g s available current hav
      rw [hres] at hc
      exact Option.noConfusion hc
    · rintro rfl
      rfl
  · intro n hres
    by_cases hav : available = []
    · subst hav
      exact Option.noConfusion (show (none : Option String) = some n from hres)
    · obtain ⟨c, hcmem, hc, _⟩ := recommend_result_cases d g s available current hav
      rw [hres] at hc
      obtain rfl : n = c.1 := Option.some.inj hc
      exact mem_candidateList_fst d g s available c
        ((List.perm_insertionSort candLE _).subset hcmem)

theorem recommend_membership_witness : "A" ∈ ["A"] :=
  (recommend_membership [] "g" "s" ["A"] none).2 "A" (by decide)

/-- C3: for non-empty `available_nodes`, `get_recommended_node` returns
the top candidate (w.r.t. the ordering "higher `final_score` first, ties
broken by original index") whose name differs from `current_node`, and
when every candidate name equals `current_node` it returns the overall
top candidate. -/
theorem recommend_top_ranked (d : StorageData) (g s : String)
    (available : List String) (current : Option String) (h : available ≠ []) :
    ∃ c ∈ candidateList d g s available,
      get_recommended_node d g s available current = some c.1 ∧
      ((∃ c' ∈ candidateList d g s available, some c'.1 ≠ current) →
        some c.1 ≠ current ∧
          ∀ c' ∈ candidateList d g s available, some c'.1 ≠ current → candLE c c') ∧
      ((∀ c' ∈ candidateList d g s available, some c'.1 = current) →
        ∀ c' ∈ candidateList d g s available, candLE c c') := by
  obtain ⟨c, hcmem, hres, hcase⟩ := recommend_result_cases d g s available current h
  have hperm := List.perm_insertionSort candLE (candidateList d g s available)
  have hsorted := List.sorted_insertionSort candLE (candidateList d g s available)
  refine ⟨c, hperm.subset hcmem, hres, ?_, ?_⟩
  · intro hex
    rcases hcase with hf | ⟨hf, _⟩
    · obtain ⟨_, hpc, hmin⟩ := find?_sorted_forall candLE_refl _ hsorted c hf
      refine ⟨of_decide_eq_true hpc, ?_⟩
      intro c' hc' hne'
      exact hmin c' (hperm.mem_iff.mpr hc') (decide_eq_true hne')
    · obtain ⟨c', hc', hne'⟩ := hex
      have hnp := List.find?_eq_none.mp hf c' (hperm.mem_iff.mpr hc')
      exact absurd (decide_eq_true hne') hnp
  · intro hall c' hc'
    rcases hcase with hf | ⟨hf, hhead⟩
    · obtain ⟨hcm, hpc, _⟩ := find?_sorted_forall candLE_refl _ hsorted c hf
      exact absurd (hall c (hperm.subset hcm)) (of_decide_eq_true hpc)
    · rcases hsort : List.insertionSort candLE (candidateList d g s available) with _ | ⟨c0, tl⟩
      · rw [hsort] at hhead
        exact Option.noConfusion hhead
      · rw [hsort] at hhead
        obtain rfl : c0 = c := Option.some.inj hhead
        have hsorted' : List.Sorted candLE (c0 :: tl) := hsort ▸ hsorted
        have hc'mem : c' ∈ c0 :: tl := hsort ▸ hperm.mem_iff.mpr hc'
        exact sorted_head_forall candLE_refl c0 tl hsorted' c' hc'mem

theorem recommend_top_ranked_witness :
    ∃ c ∈ candidateList [] "g" "s" ["A", "B"],
      get_recommended_node [] "g" "s" ["A", "B"] (some "A") = some c.1 ∧
      ((∃ c' ∈ candidateList [] "g" "s" ["A", "B"], some c'.1 ≠ some "A") →
        some c.1 ≠ some "A" ∧
          ∀ c' ∈ candidateList [] "g" "s" ["A", "B"], some c'.1 ≠ some "A" → candLE c c') ∧
      ((∀ c' ∈ candidateList [] "g" "s" ["A", "B"], some c'.1 = some "A") →
        ∀ c' ∈ candidateList [] "g" "s" ["A", "B"], candLE c c') :=
  recommend_top_ranked [] "g" "s" ["A", "B"] (some "A") (by simp)

theorem nodeLatestStep_eq_append (acc : List (String × NodeRecord)) (r : NodeRecord)
    (h : acc.find? (fun p => p.1 = r.node_name) = none) :
    nodeLatestStep acc r = acc ++ [(r.node_name, r)] := by
  unfold nodeLatestStep
  rw [h]

theorem nodeLatestStep_eq_update (acc : List (String × NodeRecord)) (r : NodeRecord)
    (q : String × NodeRecord)
    (h : acc.find? (fun p => p.1 = r.node_name) = some q)
    (hlt : q.2.last_check_time < r.last_check_time) :
    nodeLatestStep acc r
      = acc.map (fun p => if p.1 = r.node_name then (p.1, r) else p) := by
  unfold nodeLatestStep
  rw [h]
  exact if_pos hlt

theorem nodeLatestStep_eq_keep (acc : List (String × NodeRecord)) (r : NodeRecord)
    (q : String × NodeRecord)
    (h : acc.find? (fun p => p.1 = r.node_name) = some q)
    (hlt : ¬ q.2.last_check_time < r.last_check_time) :
    nodeLatestStep acc r = acc := by
  unfold nodeLatestStep
  rw [h]
  exact if_neg hlt

theorem nodeLatestStep_inv (seen : List NodeRecord) (acc : List (String × NodeRecord))
    (r : NodeRecord)
    (h1 : (acc.map Prod.fst).Nodup)
    (h2 : ∀ p ∈ acc, p.2 ∈ seen ∧ p.2.node_name = p.1 ∧
      ∀ r' ∈ seen, r'.node_name = p.1 → r'.last_check_time ≤ p.2.last_check_time)
    (h3 : ∀ r' ∈ seen, ∃ p ∈ acc, p.1 = r'.node_name) :
    ((nodeLatestStep acc r).map Prod.fst).Nodup ∧
    (∀ p ∈ nodeLatestStep acc r, p.2 ∈ seen ++ [r] ∧ p.2.node_name = p.1 ∧
      ∀ r' ∈ seen ++ [r], r'.node_name = p.1 → r'.last_check_time ≤ p.2.last_check_time) ∧
    (∀ r' ∈ seen ++ [r], ∃ p ∈ nodeLatestStep acc r, p.1 = r'.node_name) := by
  rcases hfind : acc.find? (fun p => p.1 = r.node_name) with _ | q
  · -- the node is new: the dict appends a fresh entry
    have hfresh : ∀ p ∈ acc, p.1 ≠ r.node_name := by
      intro p hp
      have := List.find?_eq_none.mp hfind p hp
      simpa using this
    rw [nodeLatestStep_eq_append acc r hfind]
    refine ⟨?_, ?_, ?_⟩
    · simp only [List.map_append, List.map_cons, List.map_nil]
      refine h1.append (List.nodup_singleton _) ?_
      intro a ha hb
      obtain ⟨p, hp, hpa⟩ := List.mem_map.mp ha
      rw [List.mem_singleton] at hb
      exact hfresh p hp (hpa.trans hb)
    · intro p hp
      rcases List.mem_append.mp hp with hp' | hp'
      · obtain ⟨hm, hn, hmax⟩ := h2 p hp'
        refine ⟨List.mem_append_left _ hm, hn, ?_⟩
        intro r' hr' hname
        rcases List.mem_append.mp hr' with h' | h'
        · exact hmax r' h' hname
        · rw [List.mem_singleton] at h'
          rw [h'] at hname
          exact absurd hname.symm (hfresh p hp')
      · rw [List.mem_singleton] at hp'
        subst hp'
        refine ⟨List.mem_append_right _ (by simp), rfl, ?_⟩
        intro r' hr' hname
        rcases List.mem_append.mp hr' with h' | h'
        · obtain ⟨p', hp', hpk⟩ := h3 r' h'
          exact absurd (hpk.trans hname) (hfresh p' hp')
        · rw [List.mem_singleton] at h'
          simp [h']
    · intro r' hr'
      rcases List.mem_append.mp hr' with h' | h'
      · obtain ⟨p, hp, hpk⟩ := h3 r' h'
        exact ⟨p, List.mem_append_left _ hp, hpk⟩
      · rw [List.mem_singleton] at h'
        exact ⟨(r.node_name, r), List.mem_append_right _ (by simp), by simp [h']⟩
  · -- the node already has an entry q
    have hq : q.1 = r.node_name := by
      have := List.find?_some hfind
      simpa using this
    have hqmem : q ∈ acc := List.mem_of_find?_eq_some hfind
    have hinj := List.inj_on_of_nodup_map h1
    by_cases hlt : q.2.last_check_time < r.last_check_time
    · rw [nodeLatestStep_eq_update acc r q hfind hlt]
      have hfst : ∀ p : String × NodeRecord,
          ((if p.1 = r.node_name then (p.1, r) else p) : String × NodeRecord).1 = p.1 := by
        intro p
        by_cases h : p.1 = r.node_name <;> simp [h]
      have hkeys : (acc.map (fun p => if p.1 = r.node_name then (p.1, r) else p)).map
          Prod.fst = acc.map Prod.fst := by
        rw [List.map_map]
        exact List.map_congr_left (fun p _ => hfst p)
      refine ⟨by rw [hkeys]; exact h1, ?_, ?_⟩
      · intro p' hp'
        obtain ⟨p, hp, hpe⟩ := List.mem_map.mp hp'
        by_cases hcase : p.1 = r.node_name
        · have hpq : p = q := hinj hp hqmem (hcase.trans hq.symm)
          subst hpe
          simp only [if_pos hcase]
          refine ⟨List.mem_append_right _ (by simp), hcase.symm, ?_⟩
          · intro r' hr' hname
            rcases List.mem_append.mp hr' with h' | h'
            · obtain ⟨_, _, hmax⟩ := h2 p hp
              have := hmax r' h' (by simpa using hname)
              calc r'.last_check_time ≤ p.2.last_check_time := this
                _ ≤ r.last_check_time := by rw [hpq]; exact le_of_lt hlt
            · rw [List.mem_singleton] at h'
              simp [h']
        · subst hpe
          simp only [if_neg hcase]
          obtain ⟨hm, hn, hmax⟩ := h2 p hp
          refine ⟨List.mem_append_left _ hm, hn, ?_⟩
          intro r' hr' hname
          rcases List.mem_append.mp hr' with h' | h'
          · exact hmax r' h' hname
          · rw [List.mem_singleton] at h'
            rw [h'] at hname
            exact absurd hname.symm hcase
      · intro r' hr'
        rcases List.mem_append.mp hr' with h' | h'
        · obtain ⟨p, hp, hpk⟩ := h3 r' h'
          refine ⟨(if p.1 = r.node_name then (p.1, r) else p),
            List.mem_map_of_mem _ hp, ?_⟩
          rw [hfst p]
          exact hpk
        · rw [List.mem_singleton] at h'
          rw [h']
          refine ⟨(if q.1 = r.node_name then (q.1, r) else q),
            List.mem_map_of_mem _ hqmem, ?_⟩
          rw [hfst q]
          exact hq
    · rw [nodeLatestStep_eq_keep acc r q hfind hlt]
      refine ⟨h1, ?_, ?_⟩
      · intro p hp
        obtain ⟨hm, hn, hmax⟩ := h2 p hp
        refine ⟨List.mem_append_left _ hm, hn, ?_⟩
        intro r' hr' hname
        rcases List.mem_append.mp hr' with h' | h'
        · exact hmax r' h' hname
        · rw [List.mem_singleton] at h'
          rw [h'] at hname ⊢
          have hpq : p = q := hinj hp hqmem (hname.symm.trans hq.symm)
          rw [hpq]
          exact le_of_not_lt hlt
      · intro r' hr'
        rcases List.mem_append.mp hr' with h' | h'
        · obtain ⟨p, hp, hpk⟩ := h3 r' h'
          exact ⟨p, hp, hpk⟩
        · rw [List.mem_singleton] at h'
          rw [h']
          exact ⟨q, hqmem, hq⟩

theorem nodeLatest_foldl_inv (l : List NodeRecord) :
    ∀ (seen : List NodeRecord) (acc : List (String × NodeRecord)),
      (acc.map Prod.fst).Nodup →
      (∀ p ∈ acc, p.2 ∈ seen ∧ p.2.node_name = p.1 ∧
        ∀ r' ∈ seen, r'.node_name = p.1 → r'.last_check_time ≤ p.2.last_check_time) →
      (∀ r' ∈ seen, ∃ p ∈ acc, p.1 = r'.node_name) →
      ((l.foldl nodeLatestStep acc).map Prod.fst).Nodup ∧
      (∀ p ∈ l.foldl nodeLatestStep acc, p.2 ∈ seen ++ l ∧ p.2.node_name = p.1 ∧
        ∀ r' ∈ seen ++ l, r'.node_name = p.1 → r'.last_check_time ≤ p.2.last_check_time) ∧
      (∀ r' ∈ seen ++ l, ∃ p ∈ l.foldl nodeLatestStep acc, p.1 = r'.node_name) := by
  induction l with
  | nil =>
    intro seen acc h1 h2 h3
    refine ⟨h1, ?_, ?_⟩
    · simpa using h2
    · simpa using h3
  | cons r tl ih =>
    intro seen acc h1 h2 h3
    obtain ⟨g1, g2, g3⟩ := nodeLatestStep_inv seen acc r h1 h2 h3
    have := ih (seen ++ [r]) (nodeLatestStep acc r) g1 g2 g3
    simpa [List.foldl_cons, List.append_assoc] using this

theorem nodeLatest_spec (l : List NodeRecord) :
    ((nodeLatest l).map Prod.fst).Nodup ∧
    (∀ p ∈ nodeLatest l, p.2 ∈ l ∧ p.2.node_name = p.1 ∧
      ∀ r' ∈ l, r'.node_name = p.1 → r'.last_check_time ≤ p.2.last_check_time) ∧
    (∀ r ∈ l, ∃ p ∈ nodeLatest l, p.1 = r.node_name) := by
  have := nodeLatest_foldl_inv l [] [] (by simp) (by simp) (by simp)
  simpa [nodeLatest] using this

theorem mem_reliabilityRankings (records : List NodeRecord) (e : RankEntry)
    (h : e ∈ reliabilityRankings records) :
    ∃ p ∈ nodeLatest records, e = mkRankEntry records p.1 p.2 := by
  unfold reliabilityRankings at h
  have h' := (List.perm_insertionSort _ _).subset h
  obtain ⟨p, hp, he⟩ := List.mem_map.mp h'
  exact ⟨p, hp, he.symm⟩

theorem reliabilityRankings_complete (records : List NodeRecord) (r : NodeRecord)
    (h : r ∈ records) : ∃ e ∈ reliabilityRankings records, e.node = r.node_name := by
  obtain ⟨p, hp, hpk⟩ := (nodeLatest_spec records).2.2 r h
  refine ⟨mkRankEntry records p.1 p.2, ?_, hpk⟩
  unfold reliabilityRankings
  exact (List.perm_insertionSort _ _).mem_iff.mpr (List.mem_map_of_mem _ hp)

theorem reliabilityMapGet_foldl (name : String) :
    ∀ (l : List RankEntry) (acc : Option RankEntry) (e : RankEntry),
      l.foldl (fun acc x => if x.node = name then some x else acc) acc = some e →
      (e ∈ l ∧ e.node = name) ∨ acc = some e := by
  intro l
  induction l with
  | nil => intro acc e h; exact Or.inr h
  | cons x tl ih =>
    intro acc e h
    rw [List.foldl_cons] at h
    rcases ih _ e h with h' | h'
    · exact Or.inl ⟨List.mem_cons_of_mem _ h'.1, h'.2⟩
    · by_cases hx : x.node = name
      · rw [if_pos hx] at h'
        obtain rfl := Option.some.inj h'
        exact Or.inl ⟨List.mem_cons_self _ _, hx⟩
      · rw [if_neg hx] at h'
        exact Or.inr h'

theorem reliabilityMapGet_mem (l : List RankEntry) (name : String) (e : RankEntry)
    (h : reliabilityMapGet l name = some e) : e ∈ l ∧ e.node = name := by
  rcases reliabilityMapGet_foldl name l none e h with h' | h'
  · exact h'
  · exact Option.noConfusion h'

/-- C2 (amended): the final score of a candidate relay is determined by
`reliabilityMapGet` over the rankings filtered to score ≥ 0 and
truncated to the first `len(available_relay_names)` entries.  When the
relay has an entry there, its score is
`0.7 * reliability_score + 0.3 * success_rate` plus the confidence boost
exactly under `success_rate > 0.5 and total_checks >= 5`, where
`success_rate` is recomputed from the full stored history of that relay
and `reliability_score`/`total_checks` come from its most recent record;
otherwise, its score is the exploration prior `0.3` — which can happen
both for relays with no stored history and for stored relays truncated
out of the ranking list.  Every stored relay does appear in the full
(untruncated) rankings. -/
theorem recommend_score_formula (d : StorageData) (g s : String)
    (available : List String) (n : String) (sc : ℚ) (i : ℕ)
    (hmem : (n, sc, i) ∈ candidateList d g s available) :
    (∀ e, reliabilityMapGet (getNodesByReliability d g s 0 available.length) n = some e →
      e.node = n ∧
      sc = (7/10) * e.reliability_score + (3/10) * e.success_rate +
        (if (1/2 : ℚ) < e.success_rate ∧ 5 ≤ e.total_checks then
          min ((e.total_checks : ℚ) / 50) 1 * ((e.success_rate - 1/2) * 2) * (1/10)
        else 0) ∧
      ∃ latest ∈ recordsOf d g s,
        latest.node_name = n ∧
        (∀ r ∈ recordsOf d g s, r.node_name = n →
          r.last_check_time ≤ latest.last_check_time) ∧
        e.reliability_score = latest.reliability_score ∧
        e.total_checks = latest.total_checks ∧
        e.success_rate =
          ((recordsOf d g s).countP
              (fun r => decide (r.node_name = n ∧ r.status = "available")) : ℚ) /
            ((recordsOf d g s).countP (fun r => decide (r.node_name = n)) : ℚ)) ∧
    (reliabilityMapGet (getNodesByReliability d g s 0 available.length) n = none →
      sc = 3/10) ∧
    ((∃ r ∈ recordsOf d g s, r.node_name = n) →
      ∃ e ∈ reliabilityRankings (nodeHistory d g s), e.node = n) := by
  have hperm : (nodeHistory d g s).Perm (recordsOf d g s) :=
    List.perm_insertionSort _ _
  simp only [candidateList, List.mem_map] at hmem
  obtain ⟨p, hp, heq⟩ := hmem
  obtain ⟨h1, h2, h3⟩ : p.2 = n ∧
      finalScore (reliabilityMapGet
        (getNodesByReliability d g s 0 available.length) p.2) = sc ∧ p.1 = i := by
    simpa [Prod.ext_iff] using heq
  rw [h1] at h2
  refine ⟨?_, ?_, ?_⟩
  · intro e he
    obtain ⟨hemem, henode⟩ := reliabilityMapGet_mem _ _ _ he
    have hsc : sc = finalScore (some e) := by rw [← h2, he]
    have he_rank : e ∈ reliabilityRankings (nodeHistory d g s) :=
      List.filter_subset' _ (List.take_subset _ _ hemem)
    obtain ⟨p', hp', hep'⟩ := mem_reliabilityRankings _ _ he_rank
    obtain ⟨hmem', hname', hmax'⟩ := (nodeLatest_spec (nodeHistory d g s)).2.1 p' hp'
    have hkey : p'.1 = n := by
      rw [hep'] at henode
      exact henode
    have hnr_mem : p'.2 ∈ (nodeHistory d g s).filter
        (fun r => decide (r.node_name = p'.1)) :=
      List.mem_filter.mpr ⟨hmem', by simp [hname']⟩
    have hnr_pos : 0 < ((nodeHistory d g s).filter
        (fun r => decide (r.node_name = p'.1))).length :=
      List.length_pos.mpr (List.ne_nil_of_mem hnr_mem)
    refine ⟨henode, ?_, p'.2, hperm.subset hmem', ?_, ?_, ?_, ?_, ?_⟩
    · rw [hsc]
      rfl
    · rw [hname', hkey]
    · intro r hr hrn
      exact hmax' r (hperm.mem_iff.mpr hr) (by rw [hrn, hkey])
    · rw [hep']
      rfl
    · rw [hep']
      rfl
    · rw [hep']
      show (if 0 < ((nodeHistory d g s).filter
            (fun r => decide (r.node_name = p'.1))).length then
          (((((nodeHistory d g s).filter (fun r => decide (r.node_name = p'.1))).filter
              (fun r => decide (r.status = "available"))).length : ℚ) /
            (((nodeHistory d g s).filter (fun r => decide (r.node_name = p'.1))).length : ℚ))
        else 0) = _
      rw [if_pos hnr_pos]
      have hden : ((nodeHistory d g s).filter
            (fun r => decide (r.node_name = p'.1))).length
          = (recordsOf d g s).countP (fun r => decide (r.node_name = n)) := by
        rw [← List.countP_eq_length_filter, hkey]
        exact hperm.countP_eq _
      have hnum : (((nodeHistory d g s).filter (fun r => decide (r.node_name = p'.1))).filter
            (fun r => decide (r.status = "available"))).length
          = (recordsOf d g s).countP
              (fun r => decide (r.node_name = n ∧ r.status = "available")) := by
        rw [List.filter_filter, ← List.countP_eq_length_filter, hkey]
        rw [hperm.countP_eq _]
        apply List.countP_congr
        intro r _
        simp [Bool.and_comm]
      rw [hden, hnum]
  · intro he
    rw [← h2, he]
    rfl
  · intro ⟨r, hr, hrn⟩
    obtain ⟨e, hemem, henode⟩ :=
      reliabilityRankings_complete (nodeHistory d g s) r (hperm.mem_iff.mpr hr)
    exact ⟨e, hemem, henode.trans hrn⟩

/-- C2 is false as stated: relay "A" has a stored record under
`("g", "s")` (reliability 2/10, success rate 0), yet with
`available = ["A"]` the rankings are truncated to
`len(available) = 1` entry — taken by the higher-scored relay "B" — so
"A"'s final score is the fixed exploration prior 3/10, not the formula
value `0.7 * 0.2 + 0.3 * 0 + 0 = 0.14`. -/
theorem recommend_score_formula_cex :
    (∃ r ∈ recordsOf cexData "g" "s", r.node_name = "A") ∧
    candidateList cexData "g" "s" ["A"] = [("A", 3/10, 0)] ∧
    ((7/10) * (2/10) + (3/10) * 0 + 0 : ℚ) ≠ 3/10 := by
  refine ⟨by decide, by decide, by norm_num⟩

theorem recommend_score_formula_witness :
    (∀ e, reliabilityMapGet (getNodesByReliability cexData "g" "s" 0 1) "B" = some e →
      e.node = "B" ∧
      (19/20 : ℚ) = (7/10) * e.reliability_score + (3/10) * e.success_rate +
        (if (1/2 : ℚ) < e.success_rate ∧ 5 ≤ e.total_checks then
          min ((e.total_checks : ℚ) / 50) 1 * ((e.success_rate - 1/2) * 2) * (1/10)
        else 0) ∧
      ∃ latest ∈ recordsOf cexData "g" "s",
        latest.node_name = "B" ∧
        (∀ r ∈ recordsOf cexData "g" "s", r.node_name = "B" →
          r.last_check_time ≤ latest.last_check_time) ∧
        e.reliability_score = latest.reliability_score ∧
        e.total_checks = latest.total_checks ∧
        e.success_rate =
          ((recordsOf cexData "g" "s").countP
              (fun r => decide (r.node_name = "B" ∧ r.status = "available")) : ℚ) /
            ((recordsOf cexData "g" "s").countP
              (fun r => decide (r.node_name = "B")) : ℚ)) ∧
    (reliabilityMapGet (getNodesByReliability cexData "g" "s" 0 1) "B" = none →
      (19/20 : ℚ) = 3/10) ∧
    ((∃ r ∈ recordsOf cexData "g" "s", r.node_name = "B") →
      ∃ e ∈ reliabilityRankings (nodeHistory cexData "g" "s"), e.node = "B") :=
  recommend_score_formula cexData "g" "s" ["B"] "B" (19/20) 0 (by decide)

theorem cleanup_foldl_mem (cutoff : ℚ) :
    ∀ (l : StorageData) (acc : StorageData) (k : String) (rs : List NodeRecord),
      (k, rs) ∈ l.foldl (cleanupStep cutoff) acc ↔
        (k, rs) ∈ acc ∨ ∃ rs₀, (k, rs₀) ∈ l ∧
          rs = rs₀.filter (fun r => decide (cutoff < r.last_check_time)) ∧ rs ≠ [] := by
  intro l
  induction l with
  | nil => simp
  | cons p tl ih =>
    intro acc k rs
    rw [List.foldl_cons]
    by_cases he : (p.2.filter (fun r => decide (cutoff < r.last_check_time))).isEmpty
    · have hstep : cleanupStep cutoff acc p = acc := by
        unfold cleanupStep
        rw [if_pos he]
      rw [hstep, ih]
      constructor
      · rintro (h | ⟨rs₀, h1, h2, h3⟩)
        · exact Or.inl h
        · exact Or.inr ⟨rs₀, List.mem_cons_of_mem _ h1, h2, h3⟩
      · rintro (h | ⟨rs₀, h1, h2, h3⟩)
        · exact Or.inl h
        · rcases List.mem_cons.mp h1 with h1' | h1'
          · exfalso
            apply h3
            rw [h2]
            have : rs₀ = p.2 := congrArg Prod.snd h1'
            rw [this]
            exact List.isEmpty_iff.mp he
          · exact Or.inr ⟨rs₀, h1', h2, h3⟩
    · have hstep : cleanupStep cutoff acc p
          = acc ++ [(p.1, p.2.filter (fun r => decide (cutoff < r.last_check_time)))] := by
        unfold cleanupStep
        rw [if_neg he]
      rw [hstep, ih]
      constructor
      · rintro (h | ⟨rs₀, h1, h2, h3⟩)
        · rcases List.mem_append.mp h with h' | h'
          · exact Or.inl h'
          · rw [List.mem_singleton] at h'
            have hk : k = p.1 := congrArg Prod.fst h'
            have hrs : rs = p.2.filter (fun r => decide (cutoff < r.last_check_time)) :=
              congrArg Prod.snd h'
            refine Or.inr ⟨p.2, ?_, hrs, ?_⟩
            · rw [hk]
              exact List.mem_cons_self _ _
            · rw [hrs]
              intro hnil
              exact he (List.isEmpty_iff.mpr hnil)
        · exact Or.inr ⟨rs₀, List.mem_cons_of_mem _ h1, h2, h3⟩
      · rintro (h | ⟨rs₀, h1, h2, h3⟩)
        · exact Or.inl (List.mem_append_left _ h)
        · rcases List.mem_cons.mp h1 with h1' | h1'
          · have hk : k = p.1 := congrArg Prod.fst h1'
            have hrs₀ : rs₀ = p.2 := congrArg Prod.snd h1'
            refine Or.inl (List.mem_append_right _ ?_)
            rw [List.mem_singleton, hk, h2, hrs₀]
          · exact Or.inr ⟨rs₀, h1', h2, h3⟩

/-- C8: when the backing file is absent or smaller than 5 MiB
(5 * 1024 * 1024 bytes), `_cleanup_old_records` returns the mapping
unchanged; when the file exists with size at least 5 MiB, the result
contains exactly the keys whose record list still has a record with
`last_check_time` newer than the 30-day cutoff, each bound to the
sublist of such records (records not newer than the cutoff are removed,
emptied keys are dropped). -/
theorem cleanup_behavior (fileExists : Bool) (fileSize : ℕ) (now : ℚ) (d : StorageData) :
    ((fileExists = false ∨ fileSize < 5 * 1024 * 1024) →
      cleanupOldRecords fileExists fileSize now d = d) ∧
    (fileExists = true → 5 * 1024 * 1024 ≤ fileSize →
      ∀ k rs, (k, rs) ∈ cleanupOldRecords fileExists fileSize now d ↔
        ∃ rs₀, (k, rs₀) ∈ d ∧
          rs = rs₀.filter (fun r => decide (now - 30 * 24 * 60 * 60 < r.last_check_time)) ∧
          rs ≠ []) := by
  constructor
  · intro h
    unfold cleanupOldRecords
    rcases h with h | h
    · rw [h]
      rfl
    · rw [if_pos]
      simp [h]
  · intro he hs k rs
    unfold cleanupOldRecords
    rw [he, if_neg (by simp [Nat.not_lt.mpr hs])]
    rw [cleanup_foldl_mem]
    simp

theorem cleanup_behavior_witness :
    cleanupOldRecords false 0 0 cexData = cexData :=
  (cleanup_behavior false 0 0 cexData).1 (Or.inl rfl)

/-- C9: the code diverges from the claim.  `_load_data` returns the
empty mapping when the backing file is absent (whatever reading it
would have produced), and swallows `json.JSONDecodeError` and `IOError`
as claimed; but when the file exists and its contents are not valid
UTF-8, `json.load` raises `UnicodeDecodeError`, which the
`except (json.JSONDecodeError, IOError)` clause does not catch, so the
error propagates to the caller — falsifying "in no case does it
propagate an error". -/
theorem load_error_recovery (p : LoadOutcome) (d : StorageData) :
    loadData false p = .ok [] ∧
    loadData true .jsonDecodeError = .ok [] ∧
    loadData true .ioError = .ok [] ∧
    loadData true (.parsed d) = .ok d ∧
    loadData true .unicodeDecodeError = .error () :=
  ⟨rfl, rfl, rfl, rfl, rfl⟩

theorem setKey_self_mem (d : StorageData) (k : String) (v : List NodeRecord) :
    (k, v) ∈ setKey d k v := by
  induction d with
  | nil => simp [setKey]
  | cons p rest ih =>
    by_cases hp : p.1 = k
    · simp [setKey, hp]
    · simp only [setKey, if_neg hp]
      exact List.mem_cons_of_mem p ih

theorem mem_setKey_of_ne (d : StorageData) (k : String) (v : List NodeRecord)
    (p : String × List NodeRecord) (hp : p ∈ d) (hne : p.1 ≠ k) :
    p ∈ setKey d k v := by
  induction d with
  | nil => simp at hp
  | cons q rest ih =>
    rcases List.mem_cons.mp hp with rfl | hp'
    · simp only [setKey, if_neg hne]
      exact List.mem_cons_self _ _
    · by_cases hq : q.1 = k
      · simp only [setKey, if_pos hq]
        exact List.mem_cons_of_mem _ hp'
      · simp only [setKey, if_neg hq]
        exact List.mem_cons_of_mem _ (ih hp')

theorem mem_setKey_nodup (d : StorageData) (k : String) (v : List NodeRecord)
    (hnd : (d.map Prod.fst).Nodup) (p : String × List NodeRecord)
    (h : p ∈ setKey d k v) : p = (k, v) ∨ (p ∈ d ∧ p.1 ≠ k) := by
  induction d with
  | nil =>
    simp only [setKey] at h
    exact Or.inl (List.mem_singleton.mp h)
  | cons q rest ih =>
    obtain ⟨hq_not, hrest⟩ := List.nodup_cons.mp hnd
    by_cases hq : q.1 = k
    · simp only [setKey, if_pos hq] at h
      rcases List.mem_cons.mp h with h' | h'
      · exact Or.inl h'
      · refine Or.inr ⟨List.mem_cons_of_mem q h', ?_⟩
        intro hk
        apply hq_not
        rw [hq, ← hk]
        exact List.mem_map_of_mem Prod.fst h'
    · simp only [setKey, if_neg hq] at h
      rcases List.mem_cons.mp h with h' | h'
      · exact Or.inr ⟨h' ▸ List.mem_cons_self q rest, h' ▸ hq⟩
      · rcases ih hrest h' with h'' | ⟨h'', hne⟩
        · exact Or.inl h''
        · exact Or.inr ⟨List.mem_cons_of_mem q h'', hne⟩

theorem setKey_keys_nodup (d : StorageData) (k : String) (v : List NodeRecord)
    (hnd : (d.map Prod.fst).Nodup) : ((setKey d k v).map Prod.fst).Nodup := by
  induction d with
  | nil => simp [setKey]
  | cons q rest ih =>
    obtain ⟨hq_not, hrest⟩ := List.nodup_cons.mp hnd
    by_cases hq : q.1 = k
    · simp only [setKey, if_pos hq, List.map_cons]
      refine List.nodup_cons.mpr ⟨?_, hrest⟩
      rw [← hq]
      exact hq_not
    · simp only [setKey, if_neg hq, List.map_cons]
      refine List.nodup_cons.mpr ⟨?_, ih hrest⟩
      intro hmem
      obtain ⟨p, hp, hpe⟩ := List.mem_map.mp hmem
      rcases mem_setKey_nodup rest k v hrest p hp with h' | ⟨h', _⟩
      · apply hq
        rw [h'] at hpe
        exact hpe.symm
      · exact hq_not (hpe ▸ List.mem_map_of_mem Prod.fst h')

theorem lookupKey_eq_of_mem_nodup (d : StorageData) (k : String) (rs : List NodeRecord)
    (hnd : (d.map Prod.fst).Nodup) (h : (k, rs) ∈ d) : lookupKey d k = some rs := by
  induction d with
  | nil => simp at h
  | cons q rest ih =>
    obtain ⟨hq_not, hrest⟩ := List.nodup_cons.mp hnd
    rcases List.mem_cons.mp h with h' | h'
    · rw [← h']
      simp [lookupKey, List.find?]
    · have hk_mem : k ∈ rest.map Prod.fst := by
        have := List.mem_map_of_mem Prod.fst h'
        simpa using this
      have hqk : q.1 ≠ k := fun hk => hq_not (hk ▸ hk_mem)
      simp only [lookupKey, List.find?]
      rw [show (decide (q.1 = k)) = false from decide_eq_false hqk]
      exact ih hrest h'

theorem lookupKey_none_forall (d : StorageData) (k : String)
    (h : lookupKey d k = none) : ∀ p ∈ d, p.1 ≠ k := by
  intro p hp
  unfold lookupKey at h
  rcases hf : d.find? (fun p => p.1 = k) with _ | q
  · have := List.find?_eq_none.mp hf p hp
    simpa using this
  · rw [hf] at h
    simp at h

theorem insertRecord_contains (node service group : String) (ok : Bool) (t : ℚ) :
    ∀ rs : List NodeRecord,
      ∃ r' ∈ insertRecord node service group ok t rs, r'.node_name = node := by
  intro rs
  induction rs with
  | nil => exact ⟨newRecord node service group ok t, by simp [insertRecord], rfl⟩
  | cons r tl ih =>
    by_cases hr : r.node_name = node
    · refine ⟨updatedRecord r ok t, ?_, hr⟩
      simp [insertRecord, if_pos hr]
    · obtain ⟨r', hr', hname⟩ := ih
      refine ⟨r', ?_, hname⟩
      simp only [insertRecord, if_neg hr]
      exact List.mem_cons_of_mem _ hr'

theorem insertRecord_mem_of_ne (node service group : String) (ok : Bool) (t : ℚ)
    (rs : List NodeRecord) (r : NodeRecord) (hr : r ∈ rs) (hne : r.node_name ≠ node) :
    r ∈ insertRecord node service group ok t rs := by
  induction rs with
  | nil => simp at hr
  | cons x tl ih =>
    by_cases hx : x.node_name = node
    · simp only [insertRecord, if_pos hx]
      rcases List.mem_cons.mp hr with rfl | hr'
      · exact absurd hx hne
      · exact List.mem_cons_of_mem _ hr'
    · simp only [insertRecord, if_neg hx]
      rcases List.mem_cons.mp hr with rfl | hr'
      · exact List.mem_cons_self _ _
      · exact List.mem_cons_of_mem _ (ih hr')

theorem mem_insertRecord_nodup (node service group : String) (ok : Bool) (t : ℚ) :
    ∀ rs : List NodeRecord, (rs.map NodeRecord.node_name).Nodup →
      ∀ r' ∈ insertRecord node service group ok t rs,
        (r' ∈ rs ∧ r'.node_name ≠ node) ∨
        (∃ r ∈ rs, r.node_name = node ∧ r' = updatedRecord r ok t) ∨
        ((∀ r ∈ rs, r.node_name ≠ node) ∧ r' = newRecord node service group ok t) := by
  intro rs
  induction rs with
  | nil =>
    intro _ r' hr'
    simp only [insertRecord, List.mem_singleton] at hr'
    exact Or.inr (Or.inr ⟨by simp, hr'⟩)
  | cons x tl ih =>
    intro hnd r' hr'
    rw [List.map_cons] at hnd
    obtain ⟨hx_not, htl⟩ := List.nodup_cons.mp hnd
    by_cases hx : x.node_name = node
    · simp only [insertRecord, if_pos hx] at hr'
      rcases List.mem_cons.mp hr' with rfl | hr''
      · exact Or.inr (Or.inl ⟨x, List.mem_cons_self _ _, hx, rfl⟩)
      · refine Or.inl ⟨List.mem_cons_of_mem _ hr'', ?_⟩
        intro hname
        apply hx_not
        rw [hx, ← hname]
        exact List.mem_map_of_mem NodeRecord.node_name hr''
    · simp only [insertRecord, if_neg hx] at hr'
      rcases List.mem_cons.mp hr' with rfl | hr''
      · exact Or.inl ⟨List.mem_cons_self _ _, hx⟩
      · rcases ih htl r' hr'' with ⟨h1, h2⟩ | ⟨r, h1, h2, h3⟩ | ⟨h1, h2⟩
        · exact Or.inl ⟨List.mem_cons_of_mem _ h1, h2⟩
        · exact Or.inr (Or.inl ⟨r, List.mem_cons_of_mem _ h1, h2, h3⟩)
        · refine Or.inr (Or.inr ⟨?_, h2⟩)
          intro r hr
          rcases List.mem_cons.mp hr with rfl | hr₂
          · exact hx
          · exact h1 r hr₂

theorem traceInv_step (tr : List Obs) (d : StorageData) (o : Obs)
    (hinv : traceInv tr d) : traceInv (tr ++ [o]) (applyObs d o) := by
  obtain ⟨h1, h2, h3, h4, h5⟩ := hinv
  have hold_mem : ∀ r ∈ (lookupKey d (obsKey o)).getD [],
      ∃ rs₀, lookupKey d (obsKey o) = some rs₀ ∧ (obsKey o, rs₀) ∈ d ∧ r ∈ rs₀ := by
    intro r hr
    rcases hl : lookupKey d (obsKey o) with _ | rs₀
    · rw [hl] at hr
      simp at hr
    · rw [hl] at hr
      exact ⟨rs₀, rfl, lookupKey_mem d _ rs₀ hl, hr⟩
  have holdNodup : ((((lookupKey d (obsKey o)).getD []).map NodeRecord.node_name)).Nodup := by
    rcases hl : lookupKey d (obsKey o) with _ | rs₀
    · simp
    · simpa using h2 (obsKey o, rs₀) (lookupKey_mem d _ rs₀ hl)
  rw [show applyObs d o
      = setKey d (obsKey o)
        (insertRecord o.node o.service o.group o.ok o.t
          ((lookupKey d (obsKey o)).getD [])) from rfl]
  refine ⟨?_, ?_, ?_, ?_, ?_⟩
  · exact setKey_keys_nodup d _ _ h1
  · intro p hp
    rcases mem_setKey_nodup d _ _ h1 p hp with rfl | ⟨hpd, _⟩
    · dsimp only
      by_cases hex : ∃ r ∈ (lookupKey d (obsKey o)).getD [], r.node_name = o.node
      · rw [insertRecord_names_of_mem _ _ _ _ _ _ hex]
        exact holdNodup
      · push_neg at hex
        rw [insertRecord_of_not_mem _ _ _ _ _ _ hex]
        simp only [List.map_append, List.map_cons, List.map_nil]
        refine holdNodup.append (List.nodup_singleton _) ?_
        intro a ha hb
        obtain ⟨r, hrm, hrn⟩ := List.mem_map.mp ha
        have hb' : a = o.node := by simpa [newRecord] using hb
        exact hex r hrm (hrn.trans hb')
    · exact h2 p hpd
  · intro p hp r' hr'
    rcases mem_setKey_nodup d _ _ h1 p hp with rfl | ⟨hpd, hpne⟩
    · dsimp only at hr' ⊢
      rcases mem_insertRecord_nodup _ _ _ _ _ _ holdNodup r' hr' with
        ⟨hmem, hne⟩ | ⟨r, hrm, hrname, rfl⟩ | ⟨hall, rfl⟩
      · obtain ⟨rs₀, hl, hpair, hrmem⟩ := hold_mem r' hmem
        have hold3 := h3 (obsKey o, rs₀) hpair r' hrmem
        dsimp only at hold3
        rw [hold3]
        constructor
        · rintro ⟨o', ho', hko', hno', hok'⟩
          exact ⟨o', List.mem_append_left _ ho', hko', hno', hok'⟩
        · rintro ⟨o', ho', hko', hno', hok'⟩
          rcases List.mem_append.mp ho' with h' | h'
          · exact ⟨o', h', hko', hno', hok'⟩
          · rw [List.mem_singleton] at h'
            rw [h'] at hno'
            exact absurd hno'.symm hne
      · obtain ⟨rs₀, hl, hpair, hrmem⟩ := hold_mem r hrm
        by_cases hok : o.ok
        · have hlat : (updatedRecord r o.ok o.t).last_available_time = some o.t := by
            simp [updatedRecord, hok]
          refine iff_of_true (by simp [hlat]) ?_
          refine ⟨o, List.mem_append_right _ (by simp), rfl, ?_, hok⟩
          simp [updatedRecord, hrname]
        · have hlat : (updatedRecord r o.ok o.t).last_available_time
              = r.last_available_time := by
            simp [updatedRecord, hok]
          have hold3 := h3 (obsKey o, rs₀) hpair r hrmem
          dsimp only at hold3
          rw [hlat, hold3]
          constructor
          · rintro ⟨o', ho', hko', hno', hok'⟩
            refine ⟨o', List.mem_append_left _ ho', hko', ?_, hok'⟩
            simpa [updatedRecord] using hno'
          · rintro ⟨o', ho', hko', hno', hok'⟩
            rcases List.mem_append.mp ho' with h' | h'
            · refine ⟨o', h', hko', ?_, hok'⟩
              simpa [updatedRecord] using hno'
            · rw [List.mem_singleton] at h'
              rw [h'] at hok'
              exact absurd hok' hok
      · constructor
        · intro hsome
          by_cases hok : o.ok
          · refine ⟨o, List.mem_append_right _ (by simp), rfl, ?_, hok⟩
            simp [newRecord]
          · exfalso
            rw [show (newRecord o.node o.service o.group o.ok o.t).last_available_time
                = none by simp [newRecord, hok]] at hsome
            simp at hsome
        · rintro ⟨o', ho', hko', hno', hok'⟩
          rcases List.mem_append.mp ho' with h' | h'
          · exfalso
            obtain ⟨p', hp', hpk, r'', hr''m, hr''n⟩ := h5 o' h'
            rcases hl : lookupKey d (obsKey o) with _ | rs₀
            · exact lookupKey_none_forall d _ hl p' hp' (hpk.trans hko')
            · have hp'eq : p' = (obsKey o, rs₀) :=
                List.inj_on_of_nodup_map h1 hp' (lookupKey_mem d _ rs₀ hl)
                  (by rw [hpk, hko'])
              have hr''mem : r'' ∈ (lookupKey d (obsKey o)).getD [] := by
                rw [hl]
                rw [hp'eq] at hr''m
                exact hr''m
              apply hall r'' hr''mem
              rw [hr''n, hno']
              simp [newRecord]
          · rw [List.mem_singleton] at h'
            rw [h'] at hok'
            have : (newRecord o.node o.service o.group o.ok o.t).last_available_time
                = some o.t := by simp [newRecord, hok']
            simp [this]
    · have hold3 := h3 p hpd r' hr'
      rw [hold3]
      constructor
      · rintro ⟨o', ho', hko', hno', hok'⟩
        exact ⟨o', List.mem_append_left _ ho', hko', hno', hok'⟩
      · rintro ⟨o', ho', hko', hno', hok'⟩
        rcases List.mem_append.mp ho' with h' | h'
        · exact ⟨o', h', hko', hno', hok'⟩
        · rw [List.mem_singleton] at h'
          rw [h'] at hko'
          exact absurd hko' hpne.symm
  · intro hs p hp r' hr'
    have hs' : (tr.map Obs.t).Pairwise (· ≤ ·) ∧ _ :=
      List.pairwise_append.mp (by simpa [List.map_append] using hs)
    obtain ⟨hs_tr, -, hs_cross⟩ := List.pairwise_append.mp
      (by simpa [List.map_append] using hs)
    have ht : ∀ o' ∈ tr, o'.t ≤ o.t := by
      intro o' ho'
      exact hs_cross _ (List.mem_map_of_mem _ ho') _ (by simp)
    have h4' := h4 hs_tr
    rcases mem_setKey_nodup d _ _ h1 p hp with rfl | ⟨hpd, hpne⟩
    · dsimp only at hr' ⊢
      rcases mem_insertRecord_nodup _ _ _ _ _ _ holdNodup r' hr' with
        ⟨hmem, hne⟩ | ⟨r, hrm, hrname, rfl⟩ | ⟨hall, rfl⟩
      · obtain ⟨rs₀, hl, hpair, hrmem⟩ := hold_mem r' hmem
        obtain ⟨hb, hw⟩ := h4' (obsKey o, rs₀) hpair r' hrmem
        refine ⟨hb, ?_⟩
        obtain ⟨o'', ho'', he⟩ := hw
        exact ⟨o'', List.mem_append_left _ ho'', he⟩
      · obtain ⟨rs₀, hl, hpair, hrmem⟩ := hold_mem r hrm
        obtain ⟨hb, hw⟩ := h4' (obsKey o, rs₀) hpair r hrmem
        constructor
        · intro v hv
          by_cases hok : o.ok
          · rw [show (updatedRecord r o.ok o.t).last_available_time = some o.t by
              simp [updatedRecord, hok]] at hv
            obtain rfl := Option.some.inj hv
            simp [updatedRecord]
          · rw [show (updatedRecord r o.ok o.t).last_available_time
                = r.last_available_time by simp [updatedRecord, hok]] at hv
            have hvb := hb v hv
            obtain ⟨o'', ho'', he⟩ := hw
            have : r.last_check_time ≤ o.t := he ▸ ht o'' ho''
            calc v ≤ r.last_check_time := hvb
              _ ≤ o.t := this
              _ = (updatedRecord r o.ok o.t).last_check_time := by simp [updatedRecord]
        · exact ⟨o, List.mem_append_right _ (by simp), by simp [updatedRecord]⟩
      · constructor
        · intro v hv
          by_cases hok : o.ok
          · rw [show (newRecord o.node o.service o.group o.ok o.t).last_available_time
                = some o.t by simp [newRecord, hok]] at hv
            obtain rfl := Option.some.inj hv
            simp [newRecord]
          · rw [show (newRecord o.node o.service o.group o.ok o.t).last_available_time
                = none by simp [newRecord, hok]] at hv
            exact Option.noConfusion hv
        · exact ⟨o, List.mem_append_right _ (by simp), by simp [newRecord]⟩
    · obtain ⟨hb, hw⟩ := h4' p hpd r' hr'
      refine ⟨hb, ?_⟩
      obtain ⟨o'', ho'', he⟩ := hw
      exact ⟨o'', List.mem_append_left _ ho'', he⟩
  · intro o' ho'
    rcases List.mem_append.mp ho' with h' | h'
    · obtain ⟨p', hp', hpk, r'', hr''m, hr''n⟩ := h5 o' h'
      by_cases hkey : p'.1 = obsKey o
      · refine ⟨(obsKey o,
          insertRecord o.node o.service o.group o.ok o.t
            ((lookupKey d (obsKey o)).getD [])),
          setKey_self_mem d _ _, hkey.symm.trans hpk, ?_⟩
        rcases hl : lookupKey d (obsKey o) with _ | rs₀
        · exact absurd hkey (lookupKey_none_forall d _ hl p' hp')
        · have hp'eq : p' = (obsKey o, rs₀) :=
            List.inj_on_of_nodup_map h1 hp' (lookupKey_mem d _ rs₀ hl) hkey
          have hr''mem : r'' ∈ ((some rs₀ : Option (List NodeRecord)).getD []) := by
            rw [hp'eq] at hr''m
            exact hr''m
          by_cases hnn : r''.node_name = o.node
          · obtain ⟨rr, hrr, hrrn⟩ :=
              insertRecord_contains o.node o.service o.group o.ok o.t
                ((some rs₀ : Option (List NodeRecord)).getD [])
            exact ⟨rr, hrr, by rw [hrrn, ← hnn, hr''n]⟩
          · exact ⟨r'', insertRecord_mem_of_ne _ _ _ _ _ _ r'' hr''mem hnn, hr''n⟩
      · exact ⟨p', mem_setKey_of_ne d _ _ p' hp' hkey, hpk, r'', hr''m, hr''n⟩
    · rw [List.mem_singleton] at h'
      rw [h']
      refine ⟨(obsKey o,
        insertRecord o.node o.service o.group o.ok o.t
          ((lookupKey d (obsKey o)).getD [])),
        setKey_self_mem d _ _, rfl, ?_⟩
      exact insertRecord_contains o.node o.service o.group o.ok o.t _

theorem traceInv_empty : traceInv [] [] := by
  refine ⟨by simp, by simp, by simp, by simp, by simp⟩

theorem runTrace_inv_aux :
    ∀ (rest tr : List Obs) (d : StorageData),
      traceInv tr d → traceInv (tr ++ rest) (rest.foldl applyObs d) := by
  intro rest
  induction rest with
  | nil =>
    intro tr d h
    simpa using h
  | cons o rest' ih =>
    intro tr d h
    have hstep := traceInv_step tr d o h
    have := ih (tr ++ [o]) (applyObs d o) hstep
    simpa [List.append_assoc] using this

/-- C6 (amended): starting from the empty store, after any sequence of
recording operations, every stored record has `last_available_time` set
exactly when the sequence contains a successful observation for the
record's storage key and node name (the triple at storage granularity:
under the documented constraint that `#` does not occur in group or
service names, the key determines the (group, service) pair); and
whenever the recorded check times are non-decreasing, a set
`last_available_time` is at most `last_check_time`.  The non-decreasing
hypothesis on the second part is necessary: see the counterexample,
where a failure is recorded with an explicit earlier check time. -/
theorem last_available_invariant (tr : List Obs) :
    ∀ k rs, (k, rs) ∈ runTrace tr → ∀ r ∈ rs,
      (r.last_available_time.isSome ↔
        ∃ o ∈ tr, obsKey o = k ∧ o.node = r.node_name ∧ o.ok = true) ∧
      ((tr.map Obs.t).Sorted (· ≤ ·) →
        ∀ v, r.last_available_time = some v → v ≤ r.last_check_time) := by
  have hinv : traceInv tr (runTrace tr) := by
    have := runTrace_inv_aux tr [] [] traceInv_empty
    simpa [runTrace] using this
  obtain ⟨-, -, h3, h4, -⟩ := hinv
  intro k rs hmem r hr
  refine ⟨h3 (k, rs) hmem r hr, ?_⟩
  intro hs v hv
  exact (h4 hs (k, rs) hmem r hr).1 v hv

/-- C6 is false as stated over arbitrary recording sequences: recording
a success at time 100 and then a failure with an explicit earlier
`check_time` of 50 leaves the record for `("g", "s", "N")` with
`last_available_time = 100` but `last_check_time = 50`, so a set
`last_available_time` can exceed `last_check_time`. -/
theorem last_available_invariant_cex :
    ((recordsOf (runTrace cexTrace) "g" "s").map
      (fun r => (r.last_available_time, r.last_check_time))) = [(some 100, 50)] ∧
    ¬ ((100 : ℚ) ≤ 50) := by
  refine ⟨by decide, by norm_num⟩

theorem last_available_invariant_witness :
    ((newRecord "N" "s" "g" true 10).last_available_time.isSome ↔
      ∃ o ∈ witnessTrace, obsKey o = "g#s" ∧
        o.node = (newRecord "N" "s" "g" true 10).node_name ∧ o.ok = true) ∧
    ((witnessTrace.map Obs.t).Sorted (· ≤ ·) →
      ∀ v, (newRecord "N" "s" "g" true 10).last_available_time = some v →
        v ≤ (newRecord "N" "s" "g" true 10).last_check_time) :=
  last_available_invariant witnessTrace "g#s" [newRecord "N" "s" "g" true 10]
    (by decide) (newRecord "N" "s" "g" true 10) (List.mem_singleton_self _)

end ClashAutoSwitch
